import Mathlib

set_option maxRecDepth 20000

/-!
# Verification of `xcomplex::number` (src/src/number.rs)

Shallow embedding of the `Complex` value type of the repository and the
IEEE-754 binary64 (`f64`) semantics its operations rely on.

Finite doubles are modelled by their exact rational value; the special
values `+inf`, `-inf` and `NaN` are explicit constructors.  The basic
arithmetic operations (`+ - * /`), which IEEE-754 requires to be
correctly rounded, are modelled as the exact rational operation followed
by round-to-nearest-ties-to-even onto the binary64 grid (`rnd` below),
with the IEEE special-value rules spelled out case by case.  Signed zero
is not distinguished (`-0.0` and `0.0` compare numerically equal and no
claim here depends on the sign of a zero).

The transcendental library routines (`sqrt`, `exp`, `ln`, `sin`, `cos`,
`atan2`) are supplied by the host platform's libm, not by the repository;
they are abstracted as a `Host` record of functions, and theorems that
need facts about them take those facts as explicit hypotheses.
-/

namespace Xcomplex

/-!
## Executable rational arithmetic

The kernel-executable layer: Lean core marks `Rat.add`, `Rat.mul`,
`Rat.div`, `Rat.inv` irreducible, so the model computes with its own
rational operations built from `mkRat` (which does reduce), and bridge
lemmas below identify them with the standard field operations on `ℚ`.
-/

/-- The integer `z` as a rational value. -/
def qi (z : ℤ) : ℚ := mkRat z 1

/-- Executable rational addition. -/
def qadd (a b : ℚ) : ℚ := mkRat (a.num * b.den + b.num * a.den) (a.den * b.den)

/-- Executable rational subtraction. -/
def qsub (a b : ℚ) : ℚ := mkRat (a.num * b.den - b.num * a.den) (a.den * b.den)

/-- Executable rational negation. -/
def qneg (a : ℚ) : ℚ := mkRat (-a.num) a.den

/-- Executable rational multiplication. -/
def qmul (a b : ℚ) : ℚ := mkRat (a.num * b.num) (a.den * b.den)

/-- Executable rational inverse (`0⁻¹ = 0`, as in Mathlib). -/
def qinv (a : ℚ) : ℚ :=
if a.num < 0 then mkRat (-(a.den : ℤ)) a.num.natAbs
else mkRat (a.den : ℤ) a.num.natAbs

/-- Executable rational division. -/
def qdiv (a b : ℚ) : ℚ := qmul a (qinv b)

/-- Executable floor of a rational. -/
def qfloor (a : ℚ) : ℤ := a.num / (a.den : ℤ)

/-- `(2 ^ 200) ^ k`, by iterated multiplication in chunks of 200 bits
(each chunk small enough for native numeral evaluation). -/
def chunkpow : ℕ → ℕ
| 0 => 1
| k + 1 => 2 ^ 200 * chunkpow k

/-- `2 ^ n` on `ℕ`, computed in 200-bit chunks to keep recursion shallow. -/
def npow2 (n : ℕ) : ℕ := chunkpow (n / 200) * 2 ^ (n % 200)

/-- Binary logarithm (floor) of a natural number below `2 ^ f`, by
fuel-bounded halving. -/
def log2small : ℕ → ℕ → ℕ
| 0, _ => 0
| f + 1, n => if n ≤ 1 then 0 else log2small f (n / 2) + 1

/-- Binary logarithm (floor) of a natural number, descending in 200-bit
chunks; exact whenever `n < 2 ^ (200 * f)`, and for all `f` and `n ≥ 1`
it satisfies `2 ^ log2fuel f n ≤ n`. -/
def log2fuel : ℕ → ℕ → ℕ
| 0, _ => 0
| f + 1, n => if n < 2 ^ 200 then log2small 200 n else log2fuel f (n / 2 ^ 200) + 200

/-- `2 ^ z` as a rational, for an integer exponent. -/
def pow2 (z : ℤ) : ℚ :=
if 0 ≤ z then mkRat (npow2 z.toNat : ℕ) 1 else mkRat 1 (npow2 (-z).toNat)

/-- Floor of the binary logarithm of a positive rational: the unique `z`
with `2 ^ z ≤ q < 2 ^ (z+1)`, computed by scaling by `2 ^ 4500` and taking
the integer logarithm.  (Exact for `2 ^ (-4500) ≤ q < 2 ^ 4500`; far
outside the binary64 range only the one-sided bound `2 ^ z ≤ q` matters,
and it holds for every positive `q`.) -/
def floorLog2 (q : ℚ) : ℤ :=
(log2fuel 64 (q.num.toNat * npow2 4500 / q.den) : ℤ) - 4500

/-- Round a rational to the nearest integer, ties to even. -/
def roundInt (x : ℚ) : ℤ :=
let fl := qfloor x
if qsub x (qi fl) < mkRat 1 2 then fl
else if mkRat 1 2 < qsub x (qi fl) then fl + 1
else if fl % 2 = 0 then fl else fl + 1

/-- A binary64 (`f64`) value: a finite value given by its exact rational
magnitude, or one of the special values. -/
inductive F where
| finite (q : ℚ) : F
| pinf : F
| ninf : F
| nan : F
deriving DecidableEq

/-- IEEE-754 negation of a double (`-x` in Rust). -/
def F.neg : F → F
| F.finite q => F.finite (qneg q)
| F.pinf => F.ninf
| F.ninf => F.pinf
| F.nan => F.nan

/-- Round a nonnegative rational to the binary64 grid, nearest, ties to
even: the significand grid step is `2 ^ E` with
`E = max (-1074) (⌊log₂ q⌋ - 52)` (subnormal range clamped at `2^-1074`),
and a rounded magnitude reaching `2 ^ 1024` overflows to `+inf`. -/
def rndPos (q : ℚ) : F :=
let E : ℤ := max (-1074) (floorLog2 q - 52)
let n : ℤ := roundInt (qdiv q (pow2 E))
let v : ℚ := qmul (qi n) (pow2 E)
if pow2 1024 ≤ v then F.pinf else F.finite v

/-- Round an exact rational result to a binary64 value
(IEEE-754 round-to-nearest-even, the `f64` default). -/
def rnd (q : ℚ) : F :=
if q < 0 then F.neg (rndPos (qneg q)) else if q = 0 then F.finite 0 else rndPos q

/-- IEEE-754 addition of doubles (`+` on `f64`). -/
def F.add : F → F → F
| F.nan, _ => F.nan
| _, F.nan => F.nan
| F.pinf, F.ninf => F.nan
| F.ninf, F.pinf => F.nan
| F.pinf, _ => F.pinf
| _, F.pinf => F.pinf
| F.ninf, _ => F.ninf
| _, F.ninf => F.ninf
| F.finite x, F.finite y => rnd (qadd x y)

/-- IEEE-754 subtraction of doubles (`-` on `f64`). -/
def F.sub : F → F → F
| F.nan, _ => F.nan
| _, F.nan => F.nan
| F.pinf, F.pinf => F.nan
| F.ninf, F.ninf => F.nan
| F.pinf, _ => F.pinf
| _, F.pinf => F.ninf
| F.ninf, _ => F.ninf
| _, F.ninf => F.pinf
| F.finite x, F.finite y => rnd (qsub x y)

/-- IEEE-754 multiplication of doubles (`*` on `f64`). -/
def F.mul : F → F → F
| F.nan, _ => F.nan
| _, F.nan => F.nan
| F.pinf, F.pinf => F.pinf
| F.pinf, F.ninf => F.ninf
| F.ninf, F.pinf => F.ninf
| F.ninf, F.ninf => F.pinf
| F.pinf, F.finite y => if y = 0 then F.nan else if 0 < y then F.pinf else F.ninf
| F.finite x, F.pinf => if x = 0 then F.nan else if 0 < x then F.pinf else F.ninf
| F.ninf, F.finite y => if y = 0 then F.nan else if 0 < y then F.ninf else F.pinf
| F.finite x, F.ninf => if x = 0 then F.nan else if 0 < x then F.ninf else F.pinf
| F.finite x, F.finite y => rnd (qmul x y)

/-- IEEE-754 division of doubles (`/` on `f64`): division by a zero
magnitude yields `NaN` (for a zero numerator) or a signed infinity, never
an error. -/
def F.div : F → F → F
| F.nan, _ => F.nan
| _, F.nan => F.nan
| F.pinf, F.pinf => F.nan
| F.pinf, F.ninf => F.nan
| F.ninf, F.pinf => F.nan
| F.ninf, F.ninf => F.nan
| F.pinf, F.finite y => if 0 ≤ y then F.pinf else F.ninf
| F.ninf, F.finite y => if 0 ≤ y then F.ninf else F.pinf
| F.finite _, F.pinf => F.finite 0
| F.finite _, F.ninf => F.finite 0
| F.finite x, F.finite y =>
  if y = 0 then (if x = 0 then F.nan else if 0 < x then F.pinf else F.ninf)
  else rnd (qdiv x y)

/-- IEEE-754 numeric equality of doubles (`==` on `f64`): `NaN` is equal
to nothing, including itself; otherwise exact value comparison. -/
def F.beq : F → F → Bool
| F.finite x, F.finite y => decide (x = y)
| F.pinf, F.pinf => true
| F.ninf, F.ninf => true
| _, _ => false

/-- IEEE-754 numeric disequality of doubles (`!=` on `f64`), the exact
negation of `==`. -/
def F.bne (x y : F) : Bool := ! F.beq x y

/-- `x` is a (non-`NaN`, non-infinite) finite double. -/
def F.isFinite : F → Bool
| F.finite _ => true
| _ => false

/-- `x` is nonnegative in the IEEE order: a finite value `≥ 0` or `+inf`
(in particular not `NaN`). -/
def F.nonnegb : F → Bool
| F.finite q => decide (0 ≤ q)
| F.pinf => true
| _ => false

/-- `x` is an infinity or `NaN`. -/
def F.isInfOrNan : F → Bool
| F.pinf => true
| F.ninf => true
| F.nan => true
| F.finite _ => false

/-- The host platform's floating-point library routines used by
`number.rs` (`f64::sqrt`, `f64::exp`, `f64::ln`, `f64::sin`, `f64::cos`,
`f64::atan2`).  These are not part of the repository; theorems state the
facts they need about them as hypotheses. -/
structure Host where
  sqrt : F → F
  exp : F → F
  ln : F → F
  sin : F → F
  cos : F → F
  atan2 : F → F → F

/-- `pub struct Complex { pub re: f64, pub im: f64 }` (number.rs:38-42). -/
structure Complex where
  re : F
  im : F
deriving DecidableEq

/-- `Complex::new` (number.rs:61-63). -/
def Complex.new (re im : F) : Complex := ⟨re, im⟩

/-- `Complex::norm`: `(self.re * self.re + self.im * self.im).sqrt()`
(number.rs:80-82). -/
def Complex.norm (H : Host) (z : Complex) : F :=
H.sqrt (F.add (F.mul z.re z.re) (F.mul z.im z.im))

/-- `Complex::arg`: `self.im.atan2(self.re)` (number.rs:99-101). -/
def Complex.arg (H : Host) (z : Complex) : F :=
H.atan2 z.im z.re

/-- `Complex::conj`: `{ re: self.re, im: -self.im }` (number.rs:118-123). -/
def Complex.conj (z : Complex) : Complex :=
⟨z.re, F.neg z.im⟩

/-- `Complex::exp`: `let e = self.re.exp(); { re: e * self.im.cos(),
im: e * self.im.sin() }` (number.rs:140-146). -/
def Complex.exp (H : Host) (z : Complex) : Complex :=
⟨F.mul (H.exp z.re) (H.cos z.im), F.mul (H.exp z.re) (H.sin z.im)⟩

/-- `Complex::ln`: `{ re: self.norm().ln(), im: self.arg() }`
(number.rs:214-219). -/
def Complex.ln (H : Host) (z : Complex) : Complex :=
⟨H.ln (Complex.norm H z), Complex.arg H z⟩

/-- `impl Add for Complex` (number.rs:265-273). -/
def Complex.add (a b : Complex) : Complex :=
⟨F.add a.re b.re, F.add a.im b.im⟩

/-- `impl Sub for Complex` (number.rs:285-293). -/
def Complex.sub (a b : Complex) : Complex :=
⟨F.sub a.re b.re, F.sub a.im b.im⟩

/-- `impl Mul for Complex` (number.rs:275-283). -/
def Complex.mul (a b : Complex) : Complex :=
⟨F.sub (F.mul a.re b.re) (F.mul a.im b.im),
 F.add (F.mul a.re b.im) (F.mul a.im b.re)⟩

/-- `impl Div for Complex`: `let d = rhs.re * rhs.re + rhs.im * rhs.im;
{ re: (self.re * rhs.re + self.im * rhs.im) / d,
  im: (self.im * rhs.re - self.re * rhs.im) / d }` (number.rs:295-304). -/
def Complex.div (a b : Complex) : Complex :=
⟨F.div (F.add (F.mul a.re b.re) (F.mul a.im b.im))
       (F.add (F.mul b.re b.re) (F.mul b.im b.im)),
 F.div (F.sub (F.mul a.im b.re) (F.mul a.re b.im))
       (F.add (F.mul b.re b.re) (F.mul b.im b.im))⟩

/-- `Complex::powc`: `self.ln() * n.exp()` (number.rs:236-238). -/
def Complex.powc (H : Host) (z n : Complex) : Complex :=
Complex.mul (Complex.ln H z) (Complex.exp H n)

/-- `Complex::sqrt`: `let r = self.norm(); let theta = self.arg();
{ re: r.sqrt() * (theta / 2.0).cos(), im: r.sqrt() * (theta / 2.0).sin() }`
(number.rs:255-262). -/
def Complex.sqrt (H : Host) (z : Complex) : Complex :=
⟨F.mul (H.sqrt (Complex.norm H z))
       (H.cos (F.div (Complex.arg H z) (F.finite 2))),
 F.mul (H.sqrt (Complex.norm H z))
       (H.sin (F.div (Complex.arg H z) (F.finite 2)))⟩

/-- `impl PartialEq for Complex`, `eq`:
`self.re == other.re && self.im == other.im` (number.rs:307-309). -/
def Complex.eq (a b : Complex) : Bool :=
F.beq a.re b.re && F.beq a.im b.im

/-- `impl PartialEq for Complex`, `ne`:
`self.re != other.re || self.im != other.im` (number.rs:310-312). -/
def Complex.ne (a b : Complex) : Bool :=
F.bne a.re b.re || F.bne a.im b.im

/-!
## Concrete values used by the claims

The rational constants are the exact values of the relevant binary64
doubles:
* `piQ = 884279719003555 / 2^48` is the `f64` value of `π` (the rounding
  of the real `π`, slightly *below* it);
* `piHalfQ = piQ / 2` (exactly representable);
* `cosHalfPiQ = 4967757600021511 / 2^106 ≈ 6.123233995736766e-17` is the
  value a correctly-rounded `cos` returns at the double `piQ / 2` (the
  rounding of `cos(piQ/2) = sin((π - piQ)/2) > 0`);
* `atan21Q = 1246538638225297 / 2^50 = 1.1071487177940904…` is the value
  of `atan2(2.0, 1.0)` on a faithful platform, the literal the spec
  quotes.
-/

def piQ : ℚ := mkRat 884279719003555 281474976710656

def piHalfQ : ℚ := mkRat 884279719003555 562949953421312

def cosHalfPiQ : ℚ := mkRat 4967757600021511 81129638414606681695789005144064

def atan21Q : ℚ := mkRat 1246538638225297 1125899906842624

/-- `Complex::new(1.0, 2.0)`, the running example of the doc tests. -/
def c12 : Complex := ⟨F.finite 1, F.finite 2⟩

/-- `Complex::new(2.0, 3.0)`. -/
def c23 : Complex := ⟨F.finite 2, F.finite 3⟩

/-- `Complex::new(3.0, 4.0)`. -/
def c34 : Complex := ⟨F.finite 3, F.finite 4⟩

/-- The `f64` value of the literal `0.44` (the rounding of `44/100`). -/
def lit044 : F := rnd (mkRat 44 100)

/-- The `f64` value of the literal `0.08` (the rounding of `8/100`). -/
def lit008 : F := rnd (mkRat 8 100)

/-- A host whose library routines are the identity (used only to witness
theorems that hold for every host). -/
def idHost : Host :=
  ⟨fun x => x, fun x => x, fun x => x, fun x => x, fun x => x, fun _ _ => F.finite 0⟩

/-- A host whose `atan2` always returns the double `atan2(2,1)`
(used only as a witness instance). -/
def atanHost : Host :=
  ⟨fun x => x, fun x => x, fun x => x, fun x => x, fun x => x,
   fun _ _ => F.finite atan21Q⟩

/-- A host whose `cos` is constantly `1` and whose `atan2` is constantly
`0` (a witness instance satisfying the stated platform facts). -/
def posHost : Host :=
  ⟨fun x => x, fun x => x, fun x => x, fun x => x,
   fun _ => F.finite 1, fun _ _ => F.finite 0⟩

/-- A host matching the real platform at the points the branch-cut
counterexample visits: `atan2(0.0, -1.0)` is the double `piQ`, and `cos`
at the double `piQ/2` is `cosHalfPiQ ≈ 6.123233995736766e-17` (the
correctly rounded value of `cos(piQ/2) > 0` — not `0`, because the
double `piQ/2` is slightly below the real `π/2`). -/
def cosHost : Host :=
  ⟨fun x => x, fun x => x, fun x => x, fun x => x,
   fun _ => F.finite cosHalfPiQ, fun _ _ => F.finite piQ⟩

/-- `Complex::new(-1.0, 0.0)`, a point on the branch cut. -/
def cm10 : Complex := ⟨F.finite (mkRat (-1) 1), F.finite 0⟩

/-- A complex with a `NaN` real part. -/
def cNaN : Complex := ⟨F.nan, F.finite 0⟩

/-!
## Bridge lemmas: executable rational operations vs. `ℚ` field structure
-/

theorem qi_eq (z : ℤ) : qi z = (z : ℚ) := Rat.mkRat_one z

theorem qadd_eq (a b : ℚ) : qadd a b = a + b := by
  have hda : ((a.den : ℚ)) ≠ 0 := Nat.cast_ne_zero.mpr a.den_nz
  have hdb : ((b.den : ℚ)) ≠ 0 := Nat.cast_ne_zero.mpr b.den_nz
  rw [qadd, Rat.mkRat_eq_div]
  conv_rhs => rw [← Rat.num_div_den a, ← Rat.num_div_den b]
  field_simp

theorem qsub_eq (a b : ℚ) : qsub a b = a - b := by
  have hda : ((a.den : ℚ)) ≠ 0 := Nat.cast_ne_zero.mpr a.den_nz
  have hdb : ((b.den : ℚ)) ≠ 0 := Nat.cast_ne_zero.mpr b.den_nz
  rw [qsub, Rat.mkRat_eq_div]
  conv_rhs => rw [← Rat.num_div_den a, ← Rat.num_div_den b]
  field_simp
  ring

theorem qneg_eq (a : ℚ) : qneg a = -a := by
  have hda : ((a.den : ℚ)) ≠ 0 := Nat.cast_ne_zero.mpr a.den_nz
  rw [qneg, Rat.mkRat_eq_div]
  conv_rhs => rw [← Rat.num_div_den a]
  push_cast
  rw [neg_div]

theorem qmul_eq (a b : ℚ) : qmul a b = a * b := by
  have hda : ((a.den : ℚ)) ≠ 0 := Nat.cast_ne_zero.mpr a.den_nz
  have hdb : ((b.den : ℚ)) ≠ 0 := Nat.cast_ne_zero.mpr b.den_nz
  rw [qmul, Rat.mkRat_eq_div]
  conv_rhs => rw [← Rat.num_div_den a, ← Rat.num_div_den b]
  field_simp

theorem qinv_eq (a : ℚ) : qinv a = a⁻¹ := by
  rw [Rat.inv_def', Rat.divInt_eq_div, qinv]
  rcases lt_trichotomy a.num 0 with h | h | h
  · rw [if_pos h, Rat.mkRat_eq_div]
    push_cast [Int.cast_natAbs]
    rw [abs_of_neg (by exact_mod_cast h : ((a.num : ℚ)) < 0)]
    rw [neg_div_neg_eq]
  · rw [if_neg (by omega), Rat.mkRat_eq_div]
    rw [h]
    simp
  · rw [if_neg (by omega), Rat.mkRat_eq_div]
    push_cast [Int.cast_natAbs]
    rw [abs_of_pos (by exact_mod_cast h : (0:ℚ) < (a.num : ℚ))]

theorem qdiv_eq (a b : ℚ) : qdiv a b = a / b := by
  rw [qdiv, qmul_eq, qinv_eq, div_eq_mul_inv]

theorem qfloor_eq (a : ℚ) : qfloor a = ⌊a⌋ := Rat.floor_def.symm

theorem chunkpow_eq (k : ℕ) : chunkpow k = 2 ^ (200 * k) := by
  induction k with
  | zero => rfl
  | succ k ih =>
    rw [chunkpow, ih, Nat.mul_succ, Nat.pow_add]
    ring

theorem npow2_eq (n : ℕ) : npow2 n = 2 ^ n := by
  rw [npow2, chunkpow_eq, ← Nat.pow_add]
  rw [Nat.div_add_mod]

theorem pow2_eq (z : ℤ) : pow2 z = (2 : ℚ) ^ z := by
  rw [pow2]
  by_cases h : 0 ≤ z
  · rw [if_pos h, Rat.mkRat_one, npow2_eq]
    push_cast
    rw [← zpow_natCast, Int.toNat_of_nonneg h]
  · rw [if_neg h, npow2_eq]
    rw [Rat.mkRat_eq_div]
    push_cast
    rw [one_div, ← zpow_natCast, Int.toNat_of_nonneg (by omega : (0:ℤ) ≤ -z)]
    rw [← zpow_neg, neg_neg]

theorem pow2_pos (z : ℤ) : 0 < pow2 z := by
  rw [pow2_eq]
  positivity

theorem mkRat_half : mkRat 1 2 = (1 : ℚ) / 2 := by
  rw [Rat.mkRat_eq_div]
  norm_num

/-!
## Properties of the rounding function
-/

theorem roundInt_nonneg (x : ℚ) (hx : 0 ≤ x) : 0 ≤ roundInt x := by
  have h0 : (0 : ℤ) ≤ ⌊x⌋ := Int.floor_nonneg.mpr hx
  simp only [roundInt, qfloor_eq]
  split_ifs <;> omega

theorem roundInt_le (x : ℚ) : (roundInt x : ℚ) ≤ x + 1 / 2 := by
  have h1 : (⌊x⌋ : ℚ) ≤ x := Int.floor_le x
  simp only [roundInt, qfloor_eq, qsub_eq, qi_eq, mkRat_half]
  split_ifs with h h' h'' <;> push_cast <;> linarith

theorem log2small_le (f n : ℕ) (h : 1 ≤ n) : 2 ^ log2small f n ≤ n := by
  induction f generalizing n with
  | zero => simpa [log2small]
  | succ f ih =>
    rw [log2small]
    split_ifs with h1
    · simpa
    · have hn2 : 1 ≤ n / 2 := by omega
      calc 2 ^ (log2small f (n / 2) + 1) = 2 ^ log2small f (n / 2) * 2 := by ring
        _ ≤ n / 2 * 2 := by have := ih (n / 2) hn2; omega
        _ ≤ n := Nat.div_mul_le_self n 2

theorem log2fuel_le (f n : ℕ) (h : 1 ≤ n) : 2 ^ log2fuel f n ≤ n := by
  induction f generalizing n with
  | zero => simpa [log2fuel]
  | succ f ih =>
    rw [log2fuel]
    split_ifs with h1
    · exact log2small_le 200 n h
    · have hn2 : 1 ≤ n / 2 ^ 200 :=
        (Nat.one_le_div_iff (by positivity)).mpr (le_of_not_lt h1)
      calc 2 ^ (log2fuel f (n / 2 ^ 200) + 200)
          = 2 ^ log2fuel f (n / 2 ^ 200) * 2 ^ 200 := by rw [pow_add]
        _ ≤ n / 2 ^ 200 * 2 ^ 200 :=
            Nat.mul_le_mul_right _ (ih _ hn2)
        _ ≤ n := Nat.div_mul_le_self n (2 ^ 200)

/-- Either the rounding grid is already clamped at the subnormal step, or
the computed binary logarithm really is a lower bound for `q`. -/
theorem floorLog2_cases (q : ℚ) (h : 0 < q) :
    floorLog2 q = -4500 ∨ pow2 (floorLog2 q) ≤ q := by
  by_cases hN : q.num.toNat * npow2 4500 / q.den = 0
  · left
    have h0 : log2fuel 64 0 = 0 := by decide
    rw [floorLog2, hN, h0]
    decide
  · right
    have hd : ((q.den : ℕ) : ℚ) ≠ 0 := Nat.cast_ne_zero.mpr q.den_nz
    have hN1 : 1 ≤ q.num.toNat * npow2 4500 / q.den := Nat.one_le_iff_ne_zero.mpr hN
    have hlog := log2fuel_le 64 _ hN1
    have hnum : ((q.num.toNat : ℕ) : ℚ) = (q.num : ℚ) := by
      exact_mod_cast congrArg (fun z : ℤ => (z : ℚ))
        (Int.toNat_of_nonneg (Rat.num_pos.mpr h).le)
    have hnd : (q.num : ℚ) = q * (q.den : ℚ) := by
      have h0 := Rat.num_div_den q
      rw [div_eq_iff hd] at h0
      exact h0
    have hq : ((q.num.toNat * npow2 4500 : ℕ) : ℚ) / ((q.den : ℕ) : ℚ) =
        q * (2 : ℚ) ^ (4500 : ℕ) := by
      rw [npow2_eq, div_eq_iff hd]
      push_cast
      rw [hnum, hnd]
      ring
    have hcast : ((q.num.toNat * npow2 4500 / q.den : ℕ) : ℚ) ≤
        ((q.num.toNat * npow2 4500 : ℕ) : ℚ) / ((q.den : ℕ) : ℚ) := Nat.cast_div_le
    rw [floorLog2, pow2_eq, zpow_sub₀ (two_ne_zero), div_le_iff (by positivity)]
    calc (2 : ℚ) ^ ((log2fuel 64 (q.num.toNat * npow2 4500 / q.den) : ℕ) : ℤ)
        = ((2 ^ log2fuel 64 (q.num.toNat * npow2 4500 / q.den) : ℕ) : ℚ) := by
          rw [zpow_natCast]; push_cast; ring
      _ ≤ ((q.num.toNat * npow2 4500 / q.den : ℕ) : ℚ) := by exact_mod_cast hlog
      _ ≤ ((q.num.toNat * npow2 4500 : ℕ) : ℚ) / ((q.den : ℕ) : ℚ) := hcast
      _ = q * (2 : ℚ) ^ (4500 : ℕ) := hq
      _ = q * (2 : ℚ) ^ (4500 : ℤ) := by norm_num

theorem pow2_le_pow2 (a b : ℤ) (h : a ≤ b) : pow2 a ≤ pow2 b := by
  rw [pow2_eq, pow2_eq]
  exact zpow_le_zpow_right₀ one_le_two h

theorem pow2_half (z : ℤ) : pow2 z / 2 = pow2 (z - 1) := by
  rw [pow2_eq, pow2_eq, zpow_sub₀ (two_ne_zero), zpow_one]

/-- A nonnegative rational rounds to `+inf` or to a nonnegative finite
value. -/
theorem rndPos_cases (q : ℚ) (hq : 0 ≤ q) :
    rndPos q = F.pinf ∨ ∃ v, rndPos q = F.finite v ∧ 0 ≤ v := by
  have hn : 0 ≤ roundInt (qdiv q (pow2 (max (-1074) (floorLog2 q - 52)))) := by
    apply roundInt_nonneg
    rw [qdiv_eq]
    exact div_nonneg hq (pow2_pos _).le
  simp only [rndPos]
  split_ifs with h
  · exact Or.inl rfl
  · refine Or.inr ⟨_, rfl, ?_⟩
    rw [qmul_eq, qi_eq]
    exact mul_nonneg (by exact_mod_cast hn) (pow2_pos _).le

theorem rnd_nonnegb (q : ℚ) (hq : 0 ≤ q) : F.nonnegb (rnd q) = true := by
  rw [rnd, if_neg (not_lt.mpr hq)]
  by_cases h0 : q = 0
  · rw [if_pos h0]
    simp [F.nonnegb]
  · rw [if_neg h0]
    rcases rndPos_cases q hq with h | ⟨v, hv, hv0⟩
    · rw [h]
      rfl
    · rw [hv]
      simp [F.nonnegb, hv0]

/-- A positive rational below the smallest normal magnitude rounds on the
subnormal grid: the result is finite, nonnegative and exceeds the input
by at most half a subnormal step. -/
theorem rndPos_smol (q : ℚ) (h0 : 0 < q) (h : q < pow2 (-1022)) :
    ∃ v, rndPos q = F.finite v ∧ 0 ≤ v ∧ v ≤ q + pow2 (-1075) := by
  have hE : max (-1074 : ℤ) (floorLog2 q - 52) = (-1074 : ℤ) := by
    rcases floorLog2_cases q h0 with hc | hc
    · omega
    · have hz : floorLog2 q < -1022 := by
        by_contra hcon
        push_neg at hcon
        have := pow2_le_pow2 _ _ hcon
        linarith
      omega
  have hn : 0 ≤ roundInt (qdiv q (pow2 (-1074))) := by
    apply roundInt_nonneg
    rw [qdiv_eq]
    exact div_nonneg h0.le (pow2_pos _).le
  have hnle : (roundInt (qdiv q (pow2 (-1074))) : ℚ) ≤ q / pow2 (-1074) + 1 / 2 := by
    calc (roundInt (qdiv q (pow2 (-1074))) : ℚ)
        ≤ qdiv q (pow2 (-1074)) + 1 / 2 := roundInt_le _
      _ = q / pow2 (-1074) + 1 / 2 := by rw [qdiv_eq]
  have hvle : (roundInt (qdiv q (pow2 (-1074))) : ℚ) * pow2 (-1074) ≤
      q + pow2 (-1075) := by
    have hp := pow2_pos (-1074)
    have h1 : (roundInt (qdiv q (pow2 (-1074))) : ℚ) * pow2 (-1074) ≤
        (q / pow2 (-1074) + 1 / 2) * pow2 (-1074) :=
      mul_le_mul_of_nonneg_right hnle hp.le
    have h2 : (q / pow2 (-1074) + 1 / 2) * pow2 (-1074) = q + pow2 (-1074) / 2 := by
      field_simp
      ring
    rw [h2, pow2_half] at h1
    norm_num at h1 ⊢
    exact h1
  have hv0 : 0 ≤ (roundInt (qdiv q (pow2 (-1074))) : ℚ) * pow2 (-1074) :=
    mul_nonneg (by exact_mod_cast hn) (pow2_pos _).le
  have hsmall : (roundInt (qdiv q (pow2 (-1074))) : ℚ) * pow2 (-1074) < pow2 1024 := by
    have ha : pow2 (-1022) ≤ 1 := by
      have := pow2_le_pow2 (-1022) 0 (by omega)
      simpa [pow2] using this
    have hb : pow2 (-1075) ≤ 1 := by
      have := pow2_le_pow2 (-1075) 0 (by omega)
      simpa [pow2] using this
    have hc : (2 : ℚ) ≤ pow2 1024 := by
      have := pow2_le_pow2 1 1024 (by omega)
      have h1 : pow2 1 = (2 : ℚ) := by
        rw [pow2_eq]
        norm_num
      linarith
    linarith
  simp only [rndPos, hE]
  rw [if_neg (by rw [qmul_eq, qi_eq]; exact not_le.mpr hsmall)]
  refine ⟨_, rfl, ?_, ?_⟩ <;> rw [qmul_eq, qi_eq]
  · exact hv0
  · exact hvle

/-- Rounding a rational of magnitude below the smallest normal double
yields a finite value of magnitude at most `2^-1022 + 2^-1075`. -/
theorem rnd_smol (q : ℚ) (hlo : -pow2 (-1022) < q) (hhi : q < pow2 (-1022)) :
    ∃ v, rnd q = F.finite v ∧ -(pow2 (-1022) + pow2 (-1075)) ≤ v ∧
      v ≤ pow2 (-1022) + pow2 (-1075) := by
  have hp75 := pow2_pos (-1075)
  have hp22 := pow2_pos (-1022)
  rcases lt_trichotomy q 0 with h | h | h
  · rw [rnd, if_pos h]
    have hq : 0 < -q := by linarith
    obtain ⟨v, hv, hv0, hvle⟩ := rndPos_smol (qneg q) (by rwa [qneg_eq]) (by rw [qneg_eq]; linarith)
    rw [hv]
    refine ⟨_, rfl, ?_, ?_⟩ <;> rw [qneg_eq]
    · rw [qneg_eq] at hvle
      linarith
    · linarith
  · rw [rnd, if_neg (not_lt.mpr h.ge), if_pos h]
    exact ⟨0, rfl, by linarith, by linarith⟩
  · rw [rnd, if_neg (not_lt.mpr h.le), if_neg h.ne']
    obtain ⟨v, hv, hv0, hvle⟩ := rndPos_smol q h hhi
    exact ⟨v, hv, by linarith, by linarith⟩

/-!
## Case lemmas on the `F` operations
-/

theorem F.nonnegb_finite {q : ℚ} (h : F.nonnegb (F.finite q) = true) : 0 ≤ q := by
  simpa [F.nonnegb] using h

theorem F.add_nn (x y : F) (hx : F.nonnegb x = true) (hy : F.nonnegb y = true) :
    F.nonnegb (F.add x y) = true := by
  cases x with
  | finite p =>
    cases y with
    | finite r =>
      simp only [F.add]
      apply rnd_nonnegb
      rw [qadd_eq]
      exact add_nonneg (F.nonnegb_finite hx) (F.nonnegb_finite hy)
    | pinf => rfl
    | ninf => simp [F.nonnegb] at hy
    | nan => simp [F.nonnegb] at hy
  | pinf =>
    cases y with
    | finite r => rfl
    | pinf => rfl
    | ninf => simp [F.nonnegb] at hy
    | nan => simp [F.nonnegb] at hy
  | ninf => simp [F.nonnegb] at hx
  | nan => simp [F.nonnegb] at hx

theorem F.mul_self_nn (p : ℚ) :
    F.nonnegb (F.mul (F.finite p) (F.finite p)) = true := by
  simp only [F.mul]
  apply rnd_nonnegb
  rw [qmul_eq]
  exact mul_self_nonneg p

theorem F.mul_nn_pos (x : F) (c : ℚ) (hx : F.nonnegb x = true) (hc : 0 < c) :
    F.nonnegb (F.mul x (F.finite c)) = true := by
  cases x with
  | finite p =>
    simp only [F.mul]
    apply rnd_nonnegb
    rw [qmul_eq]
    exact mul_nonneg (F.nonnegb_finite hx) hc.le
  | pinf =>
    simp only [F.mul]
    rw [if_neg hc.ne', if_pos hc]
    rfl
  | ninf => simp [F.nonnegb] at hx
  | nan => simp [F.nonnegb] at hx

theorem F.beq_refl (x : F) (hx : x ≠ F.nan) : F.beq x x = true := by
  cases x <;> simp_all [F.beq]

theorem F.beq_zero {x : F} (hx : F.beq x (F.finite 0) = true) : x = F.finite 0 := by
  cases x <;> simp_all [F.beq]

theorem F.div_by_zero (x : F) : F.isInfOrNan (F.div x (F.finite 0)) = true := by
  cases x with
  | finite q =>
    simp only [F.div, if_pos rfl]
    split_ifs <;> rfl
  | pinf =>
    simp [F.div, F.isInfOrNan]
  | ninf =>
    simp [F.div, F.isInfOrNan]
  | nan => rfl

theorem F.isFinite_elim {x : F} (h : F.isFinite x = true) : ∃ q, x = F.finite q := by
  cases x <;> simp_all [F.isFinite]

/-- IEEE numeric equality holds exactly when both operands are the same
non-`NaN` value: equal finite values, or the same infinity. -/
theorem F.beq_iff (x y : F) : F.beq x y = true ↔
    ((∃ p, x = F.finite p ∧ y = F.finite p) ∨
      (x = F.pinf ∧ y = F.pinf) ∨ (x = F.ninf ∧ y = F.ninf)) := by
  cases x <;> cases y <;> simp [F.beq]
  exact eq_comm

/-!
## The claims
-/

/-- C1: `powc(a, n)` returns exactly the complex product of the two
independently computed sub-results `ln(a)` and `exp(n)` — for every host
library and all arguments, `Complex::powc` is definitionally
`Complex::mul (Complex::ln self) (Complex::exp n)`; in particular
`Complex(1,2).powc(Complex(2,3))` is equal under the library's
field-wise `==` to `ln(Complex(1,2)) * exp(Complex(2,3))` (given only
that the computed fields are not `NaN`, which `==` would refuse to
equate). -/
theorem C1_powc_structure (H : Host)
    (h1 : (Complex.powc H c12 c23).re ≠ F.nan)
    (h2 : (Complex.powc H c12 c23).im ≠ F.nan) :
    (∀ z n : Complex,
      Complex.powc H z n = Complex.mul (Complex.ln H z) (Complex.exp H n)) ∧
    Complex.eq (Complex.powc H c12 c23)
      (Complex.mul (Complex.ln H c12) (Complex.exp H c23)) = true := by
  constructor
  · intro z n
    rfl
  · show (F.beq (Complex.powc H c12 c23).re (Complex.powc H c12 c23).re &&
      F.beq (Complex.powc H c12 c23).im (Complex.powc H c12 c23).im) = true
    rw [F.beq_refl _ h1, F.beq_refl _ h2]
    rfl

theorem C1_witness :
    (Complex.powc idHost c12 c23).re ≠ F.nan ∧
    (Complex.powc idHost c12 c23).im ≠ F.nan ∧
    Complex.eq (Complex.powc idHost c12 c23)
      (Complex.mul (Complex.ln idHost c12) (Complex.exp idHost c23)) = true := by
  have h1 : (Complex.powc idHost c12 c23).re ≠ F.nan := by decide
  have h2 : (Complex.powc idHost c12 c23).im ≠ F.nan := by decide
  exact ⟨h1, h2, (C1_powc_structure idHost h1 h2).2⟩

/-- C2: division never fails — for every complex `a` and every divisor
`b` whose computed squared magnitude compares `== 0.0`, both fields of
`a / b` are `+inf`, `-inf` or `NaN` (IEEE-754 division semantics, no
runtime error); concretely `Complex(1,0) / Complex(0,0)` is
`(NaN, NaN)`, whose fields are indeed `NaN`. -/
theorem C2_div_zero_total (a b : Complex)
    (h : F.beq (F.add (F.mul b.re b.re) (F.mul b.im b.im)) (F.finite 0) = true) :
    F.isInfOrNan (Complex.div a b).re = true ∧
    F.isInfOrNan (Complex.div a b).im = true ∧
    Complex.div ⟨F.finite 1, F.finite 0⟩ ⟨F.finite 0, F.finite 0⟩ =
      ⟨F.nan, F.nan⟩ := by
  have hz := F.beq_zero h
  refine ⟨?_, ?_, by decide⟩
  · show F.isInfOrNan (F.div (F.add (F.mul a.re b.re) (F.mul a.im b.im))
      (F.add (F.mul b.re b.re) (F.mul b.im b.im))) = true
    rw [hz]
    exact F.div_by_zero _
  · show F.isInfOrNan (F.div (F.sub (F.mul a.im b.re) (F.mul a.re b.im))
      (F.add (F.mul b.re b.re) (F.mul b.im b.im))) = true
    rw [hz]
    exact F.div_by_zero _

theorem C2_witness :
    F.beq (F.add (F.mul (F.finite 0) (F.finite 0))
      (F.mul (F.finite 0) (F.finite 0))) (F.finite 0) = true ∧
    F.isInfOrNan (Complex.div c12 ⟨F.finite 0, F.finite 0⟩).re = true ∧
    F.isInfOrNan (Complex.div c12 ⟨F.finite 0, F.finite 0⟩).im = true := by
  have h : F.beq (F.add (F.mul (F.finite 0) (F.finite 0))
      (F.mul (F.finite 0) (F.finite 0))) (F.finite 0) = true := by decide
  exact ⟨h, (C2_div_zero_total c12 ⟨F.finite 0, F.finite 0⟩ h).1,
    (C2_div_zero_total c12 ⟨F.finite 0, F.finite 0⟩ h).2.1⟩

/-- C3: for all `a`, `b`, `a / b` is the complex number with
`re = (a.re*b.re + a.im*b.im)/d` and `im = (a.im*b.re - a.re*b.im)/d`
where `d = b.re² + b.im²` (each operation the IEEE-754 double one), and
concretely `Complex(1,2) / Complex(3,4) == Complex(0.44, 0.08)` holds
under the library's exact field-wise equality (both sides are the very
same double, the rounding of `11/25` resp. `2/25`). -/
theorem C3_div_formula :
    (∀ a b : Complex, Complex.div a b =
      ⟨F.div (F.add (F.mul a.re b.re) (F.mul a.im b.im))
             (F.add (F.mul b.re b.re) (F.mul b.im b.im)),
       F.div (F.sub (F.mul a.im b.re) (F.mul a.re b.im))
             (F.add (F.mul b.re b.re) (F.mul b.im b.im))⟩) ∧
    Complex.eq (Complex.div c12 c34) ⟨lit044, lit008⟩ = true :=
  ⟨fun _ _ => rfl, by decide⟩

/-- C5 (as frozen) is false on the code: with `a = Complex(1,0)` and
`b = Complex(2^53, 0)` — both with finite fields — the sum `1 + 2^53`
rounds (ties-to-even) to `2^53`, so `(a + b) - b` is `(0,0)` and the
library's `==` rejects `(a+b)-b == a`. -/
theorem C5_counterexample :
    ¬ (∀ a b : Complex,
        (F.isFinite a.re = true ∧ F.isFinite a.im = true ∧
         F.isFinite b.re = true ∧ F.isFinite b.im = true) →
        Complex.eq (Complex.sub (Complex.add a b) b) a = true) := by
  intro hcl
  have h := hcl ⟨F.finite 1, F.finite 0⟩ ⟨F.finite 9007199254740992, F.finite 0⟩
    ⟨rfl, rfl, rfl, rfl⟩
  revert h
  decide

/-- C5 amended: for finite `a`, `b`, `(a + b) - b == a` does hold
whenever the two component additions are exact (no rounding) and the
components of `a` are themselves representable doubles; in general the
addition may round (e.g. `a = (1,0)`, `b = (2^53,0)`) and the identity
fails. -/
theorem C5_sum_cancel_exact (pa qa pb qb : ℚ)
    (hare : rnd pa = F.finite pa) (haim : rnd qa = F.finite qa)
    (hre : rnd (qadd pa pb) = F.finite (qadd pa pb))
    (him : rnd (qadd qa qb) = F.finite (qadd qa qb)) :
    Complex.eq (Complex.sub
      (Complex.add ⟨F.finite pa, F.finite qa⟩ ⟨F.finite pb, F.finite qb⟩)
      ⟨F.finite pb, F.finite qb⟩) ⟨F.finite pa, F.finite qa⟩ = true := by
  show (F.beq (F.sub (F.add (F.finite pa) (F.finite pb)) (F.finite pb)) (F.finite pa) &&
    F.beq (F.sub (F.add (F.finite qa) (F.finite qb)) (F.finite qb)) (F.finite qa)) = true
  have e1 : F.add (F.finite pa) (F.finite pb) = F.finite (qadd pa pb) := hre
  have e2 : F.add (F.finite qa) (F.finite qb) = F.finite (qadd qa qb) := him
  rw [e1, e2]
  have e3 : F.sub (F.finite (qadd pa pb)) (F.finite pb) = F.finite pa := by
    show rnd (qsub (qadd pa pb) pb) = F.finite pa
    have e : qsub (qadd pa pb) pb = pa := by
      rw [qsub_eq, qadd_eq]
      ring
    rw [e]
    exact hare
  have e4 : F.sub (F.finite (qadd qa qb)) (F.finite qb) = F.finite qa := by
    show rnd (qsub (qadd qa qb) qb) = F.finite qa
    have e : qsub (qadd qa qb) qb = qa := by
      rw [qsub_eq, qadd_eq]
      ring
    rw [e]
    exact haim
  rw [e3, e4]
  simp [F.beq]

theorem C5_witness :
    (rnd 1 = F.finite 1 ∧ rnd 2 = F.finite 2 ∧
     rnd (qadd 1 3) = F.finite (qadd 1 3) ∧
     rnd (qadd 2 4) = F.finite (qadd 2 4)) ∧
    Complex.eq (Complex.sub (Complex.add c12 c34) c34) c12 = true := by
  refine ⟨⟨by decide, by decide, by decide, by decide⟩, ?_⟩
  exact C5_sum_cancel_exact 1 2 3 4 (by decide) (by decide) (by decide) (by decide)

/-- C6: `conj(a)` is `(a.re, -a.im)` for every `a`, and conjugation is
involutive under the library's field-wise `==` for every `a` with finite
fields. -/
theorem C6_conj_involution (a : Complex)
    (h1 : F.isFinite a.re = true) (h2 : F.isFinite a.im = true) :
    (∀ z : Complex, Complex.conj z = ⟨z.re, F.neg z.im⟩) ∧
    Complex.eq (Complex.conj (Complex.conj a)) a = true := by
  refine ⟨fun z => rfl, ?_⟩
  obtain ⟨p, hp⟩ := F.isFinite_elim h1
  obtain ⟨r, hr⟩ := F.isFinite_elim h2
  show (F.beq a.re a.re && F.beq (F.neg (F.neg a.im)) a.im) = true
  have him : F.neg (F.neg a.im) = a.im := by
    rw [hr]
    show F.finite (qneg (qneg r)) = F.finite r
    rw [qneg_eq, qneg_eq, neg_neg]
  rw [him, F.beq_refl a.re (by rw [hp]; simp), F.beq_refl a.im (by rw [hr]; simp)]
  rfl

theorem C6_witness :
    (F.isFinite c12.re = true ∧ F.isFinite c12.im = true) ∧
    Complex.eq (Complex.conj (Complex.conj c12)) c12 = true :=
  ⟨⟨by decide, by decide⟩,
    (C6_conj_involution c12 (by decide) (by decide)).2⟩

/-- C4 (as frozen) is false on the code: its branch-cut clause demands a
real part of exactly `0` when `theta == π`, but the float `theta` equals
the double `piQ < π`, so the real part is `sqrt(r) * cos(piQ/2)`, and the
platform's `cos(piQ/2)` is the small positive double `cosHalfPiQ`, not
`0`.  Instantiating the host with those platform values, at
`Complex(-1,0)` the argument compares `== piQ` while the real part of
`sqrt` is `cosHalfPiQ ≠ 0`. -/
theorem C4_counterexample :
    ¬ (∀ H : Host,
        (∀ y x : F, ∃ t : ℚ, H.atan2 y x = F.finite t ∧
          qneg piQ ≤ t ∧ t ≤ piQ ∧
          (rnd (qdiv t 2) = F.finite (qdiv t 2) ∨
            (qneg (pow2 (-1021)) < t ∧ t < pow2 (-1021)))) →
        (∀ u : ℚ, qneg piHalfQ ≤ u → u ≤ piHalfQ →
          ∃ c : ℚ, H.cos (F.finite u) = F.finite c ∧ 0 < c) →
        (∀ x : F, F.nonnegb x = true → F.nonnegb (H.sqrt x) = true) →
        ∀ z : Complex, F.isFinite z.re = true → F.isFinite z.im = true →
          (Complex.sqrt H z =
            ⟨F.mul (H.sqrt (Complex.norm H z))
                   (H.cos (F.div (Complex.arg H z) (F.finite 2))),
             F.mul (H.sqrt (Complex.norm H z))
                   (H.sin (F.div (Complex.arg H z) (F.finite 2)))⟩) ∧
          F.nonnegb (Complex.sqrt H z).re = true ∧
          (F.beq (Complex.arg H z) (F.finite piQ) = true →
            (Complex.sqrt H z).re = F.finite 0)) := by
  intro hcl
  have hat : ∀ y x : F, ∃ t : ℚ, cosHost.atan2 y x = F.finite t ∧
      qneg piQ ≤ t ∧ t ≤ piQ ∧
      (rnd (qdiv t 2) = F.finite (qdiv t 2) ∨
        (qneg (pow2 (-1021)) < t ∧ t < pow2 (-1021))) :=
    fun _ _ => ⟨piQ, rfl, by decide, by decide, Or.inl (by decide)⟩
  have hcos : ∀ u : ℚ, qneg piHalfQ ≤ u → u ≤ piHalfQ →
      ∃ c : ℚ, cosHost.cos (F.finite u) = F.finite c ∧ 0 < c :=
    fun _ _ _ => ⟨cosHalfPiQ, rfl, by decide⟩
  have hs : ∀ x : F, F.nonnegb x = true → F.nonnegb (cosHost.sqrt x) = true :=
    fun _ h => h
  have h := (hcl cosHost hat hcos hs cm10 (by decide) (by decide)).2.2 (by decide)
  revert h
  decide

/-- C4 amended: `sqrt` is the polar-form formula
`(sqrt(r)*cos(theta/2), sqrt(r)*sin(theta/2))` with `r = norm`,
`theta = arg`, and — given the platform facts that `atan2` returns a
double in `[-piQ, piQ]` (exactly halvable or subnormal), that `cos` is
strictly positive on doubles in `[-piQ/2, piQ/2]`, and that `sqrt` maps
nonnegatives to nonnegatives — the real part of `sqrt(a)` is nonnegative
(never negative, never `NaN`) for every `a` with finite fields.  On the
branch cut (`theta == piQ`) the real part equals
`sqrt(r) * cos(piQ/2)`, a small positive value, not exactly `0`. -/
theorem C4_sqrt_principal (H : Host)
    (hat : ∀ y x : F, ∃ t : ℚ, H.atan2 y x = F.finite t ∧
      qneg piQ ≤ t ∧ t ≤ piQ ∧
      (rnd (qdiv t 2) = F.finite (qdiv t 2) ∨
        (qneg (pow2 (-1021)) < t ∧ t < pow2 (-1021))))
    (hcos : ∀ u : ℚ, qneg piHalfQ ≤ u → u ≤ piHalfQ →
      ∃ c : ℚ, H.cos (F.finite u) = F.finite c ∧ 0 < c)
    (hs : ∀ x : F, F.nonnegb x = true → F.nonnegb (H.sqrt x) = true)
    (z : Complex) (h1 : F.isFinite z.re = true) (h2 : F.isFinite z.im = true) :
    (∀ w : Complex, Complex.sqrt H w =
      ⟨F.mul (H.sqrt (Complex.norm H w))
             (H.cos (F.div (Complex.arg H w) (F.finite 2))),
       F.mul (H.sqrt (Complex.norm H w))
             (H.sin (F.div (Complex.arg H w) (F.finite 2)))⟩) ∧
    F.nonnegb (Complex.sqrt H z).re = true := by
  refine ⟨fun w => rfl, ?_⟩
  obtain ⟨p, hp⟩ := F.isFinite_elim h1
  obtain ⟨r, hr⟩ := F.isFinite_elim h2
  have hnorm : F.nonnegb (Complex.norm H z) = true := by
    show F.nonnegb (H.sqrt (F.add (F.mul z.re z.re) (F.mul z.im z.im))) = true
    apply hs
    rw [hp, hr]
    exact F.add_nn _ _ (F.mul_self_nn p) (F.mul_self_nn r)
  have hnorm2 : F.nonnegb (H.sqrt (Complex.norm H z)) = true := hs _ hnorm
  obtain ⟨t, harg, htlo, hthi, hhalf⟩ := hat z.im z.re
  rw [qneg_eq] at htlo
  have hpiHalf2 : piHalfQ * 2 = piQ := by
    have h0 : qmul piHalfQ 2 = piQ := by decide
    rwa [qmul_eq] at h0
  have hdiv : ∃ u, F.div (Complex.arg H z) (F.finite 2) = F.finite u ∧
      -piHalfQ ≤ u ∧ u ≤ piHalfQ := by
    have e0 : Complex.arg H z = F.finite t := harg
    rw [e0]
    have e : F.div (F.finite t) (F.finite 2) = rnd (qdiv t 2) := by
      show (if (2 : ℚ) = 0 then
        (if t = 0 then F.nan else if 0 < t then F.pinf else F.ninf)
        else rnd (qdiv t 2)) = rnd (qdiv t 2)
      rw [if_neg (by norm_num : ¬(2 : ℚ) = 0)]
    rw [e]
    rcases hhalf with hexact | ⟨hsl, hsh⟩
    · refine ⟨qdiv t 2, hexact, ?_, ?_⟩ <;> rw [qdiv_eq] <;> linarith
    · rw [qneg_eq] at hsl
      have hm : (-1021 - 1 : ℤ) = -1022 := by norm_num
      have hhalf2 : pow2 (-1021) / 2 = pow2 (-1022) := by
        rw [pow2_half, hm]
      have h22lo : -pow2 (-1022) < qdiv t 2 := by
        rw [qdiv_eq]
        linarith
      have h22hi : qdiv t 2 < pow2 (-1022) := by
        rw [qdiv_eq]
        linarith
      obtain ⟨v, hv, hvlo, hvhi⟩ := rnd_smol _ h22lo h22hi
      have hb : qadd (pow2 (-1022)) (pow2 (-1075)) ≤ piHalfQ := by decide
      rw [qadd_eq] at hb
      exact ⟨v, hv, by linarith, by linarith⟩
  obtain ⟨u, hu, hulo, huhi⟩ := hdiv
  obtain ⟨c, hc, hcpos⟩ := hcos u (by rw [qneg_eq]; linarith) huhi
  show F.nonnegb (F.mul (H.sqrt (Complex.norm H z))
    (H.cos (F.div (Complex.arg H z) (F.finite 2)))) = true
  rw [hu, hc]
  exact F.mul_nn_pos _ _ hnorm2 hcpos

theorem C4_witness :
    (∀ y x : F, ∃ t : ℚ, posHost.atan2 y x = F.finite t ∧
      qneg piQ ≤ t ∧ t ≤ piQ ∧
      (rnd (qdiv t 2) = F.finite (qdiv t 2) ∨
        (qneg (pow2 (-1021)) < t ∧ t < pow2 (-1021)))) ∧
    (∀ u : ℚ, qneg piHalfQ ≤ u → u ≤ piHalfQ →
      ∃ c : ℚ, posHost.cos (F.finite u) = F.finite c ∧ 0 < c) ∧
    (∀ x : F, F.nonnegb x = true → F.nonnegb (posHost.sqrt x) = true) ∧
    F.isFinite c12.re = true ∧ F.isFinite c12.im = true ∧
    F.nonnegb (Complex.sqrt posHost c12).re = true := by
  have hat : ∀ y x : F, ∃ t : ℚ, posHost.atan2 y x = F.finite t ∧
      qneg piQ ≤ t ∧ t ≤ piQ ∧
      (rnd (qdiv t 2) = F.finite (qdiv t 2) ∨
        (qneg (pow2 (-1021)) < t ∧ t < pow2 (-1021))) :=
    fun _ _ => ⟨0, rfl, by decide, by decide, Or.inl (by decide)⟩
  have hcos : ∀ u : ℚ, qneg piHalfQ ≤ u → u ≤ piHalfQ →
      ∃ c : ℚ, posHost.cos (F.finite u) = F.finite c ∧ 0 < c :=
    fun _ _ _ => ⟨1, rfl, one_pos⟩
  have hs : ∀ x : F, F.nonnegb x = true → F.nonnegb (posHost.sqrt x) = true :=
    fun _ h => h
  exact ⟨hat, hcos, hs, by decide, by decide,
    (C4_sqrt_principal posHost hat hcos hs c12 (by decide) (by decide)).2⟩

/-- C7: `arg` is the two-argument arctangent `atan2(im, re)` — not
`atan(im/re)` — for every host and every `z`; whenever the host's
`atan2` only returns values in `(-π, π]`, so does `arg`; and if the
platform's `atan2(2.0, 1.0)` is the double `atan21Q =
1.1071487177940904`, then `Complex(1,2).arg()` is exactly that value. -/
theorem C7_arg_atan2 (H : Host)
    (hrange : ∀ y x : F, ∃ t : ℚ, H.atan2 y x = F.finite t ∧
      -Real.pi < (t : ℝ) ∧ (t : ℝ) ≤ Real.pi)
    (hval : H.atan2 (F.finite 2) (F.finite 1) = F.finite atan21Q) :
    (∀ z : Complex, Complex.arg H z = H.atan2 z.im z.re) ∧
    (∀ z : Complex, ∃ t : ℚ, Complex.arg H z = F.finite t ∧
      -Real.pi < (t : ℝ) ∧ (t : ℝ) ≤ Real.pi) ∧
    Complex.arg H c12 = F.finite atan21Q :=
  ⟨fun _ => rfl, fun z => hrange z.im z.re, hval⟩

theorem C7_witness :
    (∀ y x : F, ∃ t : ℚ, atanHost.atan2 y x = F.finite t ∧
      -Real.pi < (t : ℝ) ∧ (t : ℝ) ≤ Real.pi) ∧
    (∃ t : ℚ, Complex.arg atanHost c12 = F.finite t ∧
      -Real.pi < (t : ℝ) ∧ (t : ℝ) ≤ Real.pi) ∧
    Complex.arg atanHost c12 = F.finite atan21Q := by
  have hq0 : (0 : ℚ) < atan21Q := by decide
  have hq3 : atan21Q < 3 := by decide
  have hr0 : (0 : ℝ) < (atan21Q : ℝ) := by exact_mod_cast hq0
  have hr3 : ((atan21Q : ℝ)) < 3 := by exact_mod_cast hq3
  have hrange : ∀ y x : F, ∃ t : ℚ, atanHost.atan2 y x = F.finite t ∧
      -Real.pi < (t : ℝ) ∧ (t : ℝ) ≤ Real.pi := by
    intro y x
    refine ⟨atan21Q, rfl, ?_, ?_⟩
    · linarith [Real.pi_pos]
    · linarith [Real.pi_gt_three]
  exact ⟨hrange, (C7_arg_atan2 atanHost hrange rfl).2.1 c12,
    (C7_arg_atan2 atanHost hrange rfl).2.2⟩

/-- C8: `norm` computes `sqrt(re² + im²)` for every host and every `a`,
and whenever the host's `sqrt` maps nonnegative doubles to nonnegative
doubles (as IEEE-754 requires), `norm(a)` is nonnegative — a finite
value `≥ 0` or `+inf`, hence in particular never negative and never
`NaN` — for every `a` with finite non-`NaN` fields. -/
theorem C8_norm_nonneg (H : Host) (a : Complex)
    (hs : ∀ x : F, F.nonnegb x = true → F.nonnegb (H.sqrt x) = true)
    (h1 : F.isFinite a.re = true) (h2 : F.isFinite a.im = true) :
    (∀ z : Complex, Complex.norm H z =
      H.sqrt (F.add (F.mul z.re z.re) (F.mul z.im z.im))) ∧
    F.nonnegb (Complex.norm H a) = true := by
  refine ⟨fun z => rfl, ?_⟩
  obtain ⟨p, hp⟩ := F.isFinite_elim h1
  obtain ⟨r, hr⟩ := F.isFinite_elim h2
  show F.nonnegb (H.sqrt (F.add (F.mul a.re a.re) (F.mul a.im a.im))) = true
  apply hs
  rw [hp, hr]
  exact F.add_nn _ _ (F.mul_self_nn p) (F.mul_self_nn r)

theorem C8_witness :
    (∀ x : F, F.nonnegb x = true → F.nonnegb (idHost.sqrt x) = true) ∧
    F.isFinite c12.re = true ∧ F.isFinite c12.im = true ∧
    F.nonnegb (Complex.norm idHost c12) = true :=
  ⟨fun _ h => h, by decide, by decide,
    (C8_norm_nonneg idHost c12 (fun _ h => h) (by decide) (by decide)).2⟩

/-- C9: equality on `Complex` is exact field-wise numeric comparison —
`a == b` is literally `a.re == b.re && a.im == b.im` with the IEEE `==`
on doubles, which holds iff each pair of fields is the same non-`NaN`
value (equal finite values or the same infinity); no epsilon or
tolerance is involved. -/
theorem C9_eq_fieldwise (a b : Complex) :
    Complex.eq a b = (F.beq a.re b.re && F.beq a.im b.im) ∧
    (Complex.eq a b = true ↔
      (((∃ p, a.re = F.finite p ∧ b.re = F.finite p) ∨
        (a.re = F.pinf ∧ b.re = F.pinf) ∨ (a.re = F.ninf ∧ b.re = F.ninf)) ∧
       ((∃ p, a.im = F.finite p ∧ b.im = F.finite p) ∨
        (a.im = F.pinf ∧ b.im = F.pinf) ∨ (a.im = F.ninf ∧ b.im = F.ninf)))) := by
  refine ⟨rfl, ?_⟩
  rw [Complex.eq, Bool.and_eq_true, F.beq_iff, F.beq_iff]

/-- C10: `==` on `Complex` is reflexive exactly on `NaN`-free values: if
a field of `x` is `NaN` then `x == x` is `false` and `x != x` is `true`;
if no field is `NaN` then `x == x` is `true`; and `!=` is the exact
boolean negation of `==` for all inputs. -/
theorem C10_nan_neq (x : Complex) :
    ((x.re = F.nan ∨ x.im = F.nan) →
      Complex.eq x x = false ∧ Complex.ne x x = true) ∧
    ((x.re ≠ F.nan ∧ x.im ≠ F.nan) → Complex.eq x x = true) ∧
    (∀ y : Complex, Complex.ne x y = ! Complex.eq x y) := by
  refine ⟨?_, ?_, ?_⟩
  · intro h
    rcases h with h | h
    · exact ⟨by simp [Complex.eq, h, F.beq], by simp [Complex.ne, h, F.bne, F.beq]⟩
    · exact ⟨by simp [Complex.eq, h, F.beq], by simp [Complex.ne, h, F.bne, F.beq]⟩
  · rintro ⟨hre, him⟩
    rw [Complex.eq, F.beq_refl _ hre, F.beq_refl _ him]
    rfl
  · intro y
    rw [Complex.ne, Complex.eq, F.bne, F.bne, Bool.not_and]

theorem C10_witness :
    (Complex.eq cNaN cNaN = false ∧ Complex.ne cNaN cNaN = true) ∧
    Complex.eq c12 c12 = true ∧
    Complex.ne cNaN c12 = ! Complex.eq cNaN c12 :=
  ⟨(C10_nan_neq cNaN).1 (Or.inl rfl),
   (C10_nan_neq c12).2.1 ⟨by decide, by decide⟩,
   (C10_nan_neq cNaN).2.2 c12⟩

end Xcomplex
